import Mathlib

/-!
Verification of the Enron email/attachment ingestion pipeline.

Shallow embedding of the Python sources:
  - extract_emails.py        (EmailParser: attachment extraction, filename sanitization)
  - extract_edrm_attachments.py (EDRMExtractor: content-addressed attachment store)
  - load_edrm_attachments.py (EDRMLoader: subject normalization, message matching, linking)
  - load_to_postgres.py      (PostgresLoader: link rows with ON CONFLICT DO NOTHING)
  - process_all_edrm.py      (batch orchestration with a resume ledger)

Byte payloads are `List Nat`; text is `List Char` (with `String` wrappers at the
API). Machine strings and Postgres text are modelled at the character level;
case folding is ASCII (`Char.toLower`), matching Python `str.lower` and
Postgres `LOWER` on the ASCII data this corpus holds. The SHA-256 function is
external library code (Python `hashlib`), so definitions that hash take it as
an explicit function parameter; nothing is assumed about it beyond being a
function (which already gives "equal bytes, equal digest").
-/

namespace Enron

/-- Python whitespace predicate: the characters `str.strip` removes and the
regex class matches in `\x7bRe,Fw,Fwd\x7d:\s*` (ASCII whitespace, the C0
separators 28-31, and the Unicode space code points). -/
def pyIsSpace (c : Char) : Bool :=
  let n := c.toNat
  (9 ≤ n && n ≤ 13) || (28 ≤ n && n ≤ 32) || n == 133 || n == 160 ||
  n == 0x1680 || (0x2000 ≤ n && n ≤ 0x200a) || n == 0x2028 || n == 0x2029 ||
  n == 0x202f || n == 0x205f || n == 0x3000

/-- ASCII lower-casing of a character list (Python `str.lower`, Postgres `LOWER`). -/
def lowerChars (l : List Char) : List Char :=
  l.map Char.toLower

/-- Python `str.strip()`: drop whitespace from both ends. -/
def pyStripChars (l : List Char) : List Char :=
  ((l.dropWhile pyIsSpace).reverse.dropWhile pyIsSpace).reverse

/-- Does `pre` occur literally at the head of `l`? -/
def startsWithChars : List Char → List Char → Bool
  | [], _ => true
  | _ :: _, [] => false
  | a :: xs, b :: ys => decide (a = b) && startsWithChars xs ys

/-- `normalize_subject` from load_edrm_attachments.py: one application of
`re.sub` with pattern `^(Re|Fw|Fwd):\s*` (IGNORECASE) — the anchored pattern
fires at most once, so exactly one leading marker is removed — followed by
`.strip().lower()`. -/
def normalizeSubjectChars (l : List Char) : List Char :=
  if l = [] then []
  else
    let stripped :=
      if startsWithChars ['r', 'e', ':'] (lowerChars l) then
        (l.drop 3).dropWhile pyIsSpace
      else if startsWithChars ['f', 'w', ':'] (lowerChars l) then
        (l.drop 3).dropWhile pyIsSpace
      else if startsWithChars ['f', 'w', 'd', ':'] (lowerChars l) then
        (l.drop 4).dropWhile pyIsSpace
      else l
    lowerChars (pyStripChars stripped)

/-- String-level wrapper for `normalize_subject`. -/
def normalizeSubject (s : String) : String :=
  ⟨normalizeSubjectChars s.toList⟩

theorem dropWhile_pyIsSpace_idem (l : List Char) :
    (l.dropWhile pyIsSpace).dropWhile pyIsSpace = l.dropWhile pyIsSpace := by
  induction l with
  | nil => rfl
  | cons a t ih =>
    by_cases h : pyIsSpace a
    · simpa [List.dropWhile, h] using ih
    · simp [List.dropWhile, h]

theorem pyStripChars_dropWhile (l : List Char) :
    pyStripChars (l.dropWhile pyIsSpace) = pyStripChars l := by
  simp [pyStripChars, dropWhile_pyIsSpace_idem]

/-- C3 (amended): subject normalization removes exactly one leading
reply/forward marker, case-insensitively, then trims and lower-cases; a
second stacked marker survives normalization. -/
theorem normalizeSubject_strips_one_marker (s : List Char) :
    normalizeSubjectChars ('R' :: 'e' :: ':' :: ' ' :: s)
      = lowerChars (pyStripChars s)
    ∧ normalizeSubjectChars ('F' :: 'w' :: ':' :: ' ' :: s)
      = lowerChars (pyStripChars s)
    ∧ normalizeSubjectChars ('F' :: 'w' :: 'd' :: ':' :: ' ' :: s)
      = lowerChars (pyStripChars s)
    ∧ normalizeSubjectChars ('R' :: 'e' :: ':' :: ' ' :: 'F' :: 'w' :: 'd' :: ':' :: ' ' :: s)
      = lowerChars (pyStripChars ('F' :: 'w' :: 'd' :: ':' :: ' ' :: s)) := by
  refine ⟨?_, ?_, ?_, ?_⟩
  · have h : normalizeSubjectChars ('R' :: 'e' :: ':' :: ' ' :: s)
        = lowerChars (pyStripChars (s.dropWhile pyIsSpace)) := rfl
    rw [h, pyStripChars_dropWhile]
  · have h : normalizeSubjectChars ('F' :: 'w' :: ':' :: ' ' :: s)
        = lowerChars (pyStripChars (s.dropWhile pyIsSpace)) := rfl
    rw [h, pyStripChars_dropWhile]
  · have h : normalizeSubjectChars ('F' :: 'w' :: 'd' :: ':' :: ' ' :: s)
        = lowerChars (pyStripChars (s.dropWhile pyIsSpace)) := rfl
    rw [h, pyStripChars_dropWhile]
  · rfl

/-- C3 counterexample: the claim predicts that stacked markers are all
stripped, so that "Re: Fwd: X" normalizes to "x"; the code strips only the
first marker and yields "fwd: x". -/
theorem normalizeSubject_stacked_marker_counterexample :
    normalizeSubject "Re: Fwd: X" = "fwd: x"
    ∧ normalizeSubject "Re: Fwd: X" ≠ "x" := by
  constructor
  · rfl
  · decide

/-- All suffixes of a character list, longest first (the last entry is `[]`). -/
def suffixes : List Char → List (List Char)
  | [] => [[]]
  | c :: s => (c :: s) :: suffixes s

/-- Does `needle` occur as a contiguous substring of `hay`? -/
def containsSub (needle hay : List Char) : Bool :=
  (suffixes hay).any (fun t => startsWithChars needle t)

/-- Postgres `LIKE`: percent matches any sequence, underscore any single
character, backslash escapes the next pattern character. (Postgres rejects a
pattern that ends in a bare escape character; that pattern is modelled as
matching nothing.) First argument is the pattern, second the string. -/
def likeMatch : List Char → List Char → Bool
  | [], s => s.isEmpty
  | '%' :: p, s => (suffixes s).any (fun t => likeMatch p t)
  | '_' :: _, [] => false
  | '_' :: p, _ :: t => likeMatch p t
  | '\\' :: b :: p, d :: t => decide (b = d) && likeMatch p t
  | '\\' :: _, _ => false
  | _ :: _, [] => false
  | c :: p, d :: t => decide (c = d) && likeMatch p t

/-- A pattern fragment is plain when it holds none of the `LIKE`
metacharacters, so it can only match itself literally. -/
def plainChars (l : List Char) : Bool :=
  l.all (fun c => decide (c ≠ '%') && decide (c ≠ '_') && decide (c ≠ '\\'))

theorem likeMatch_nil_pat (s : List Char) : likeMatch [] s = s.isEmpty := rfl

theorem likeMatch_percent (p s : List Char) :
    likeMatch ('%' :: p) s = (suffixes s).any (fun t => likeMatch p t) := by
  simp only [likeMatch]

theorem likeMatch_lit_nil (c : Char) (p : List Char)
    (hc1 : c ≠ '%') (hc2 : c ≠ '_') (hc3 : c ≠ '\\') :
    likeMatch (c :: p) [] = false := by
  simp [likeMatch, hc1, hc2, hc3]

theorem likeMatch_lit_cons (c : Char) (p : List Char) (d : Char) (t : List Char)
    (hc1 : c ≠ '%') (hc2 : c ≠ '_') (hc3 : c ≠ '\\') :
    likeMatch (c :: p) (d :: t) = (decide (c = d) && likeMatch p t) := by
  simp [likeMatch, hc1, hc2, hc3]

theorem likeMatch_percent_nil (s : List Char) : likeMatch ['%'] s = true := by
  induction s with
  | nil => rfl
  | cons c t ih =>
    rw [likeMatch_percent] at ih ⊢
    simp only [suffixes, List.any_cons, likeMatch_nil_pat, List.isEmpty_cons,
      Bool.false_or]
    exact ih

theorem likeMatch_plain_append_percent (ns : List Char) (hns : plainChars ns = true) :
    ∀ s : List Char, likeMatch (ns ++ ['%']) s = startsWithChars ns s := by
  induction ns with
  | nil => intro s; simpa [startsWithChars] using likeMatch_percent_nil s
  | cons c ns ih =>
    intro s
    simp only [plainChars, List.all_cons, Bool.and_eq_true, decide_eq_true_eq] at hns
    obtain ⟨⟨⟨hc1, hc2⟩, hc3⟩, hrest⟩ := hns
    have ih' := ih (by simpa [plainChars] using hrest)
    cases s with
    | nil =>
      rw [List.cons_append, likeMatch_lit_nil c _ hc1 hc2 hc3]
      rfl
    | cons d t =>
      rw [List.cons_append, likeMatch_lit_cons c _ d t hc1 hc2 hc3, ih' t]
      rfl

/-- For a metacharacter-free needle, the pattern percent-needle-percent decides
exactly substring containment. -/
theorem likeMatch_contains (ns : List Char) (hns : plainChars ns = true)
    (s : List Char) :
    likeMatch ('%' :: (ns ++ ['%'])) s = containsSub ns s := by
  have h : (fun t => likeMatch (ns ++ ['%']) t) = (fun t => startsWithChars ns t) :=
    funext (likeMatch_plain_append_percent ns hns)
  rw [likeMatch_percent, containsSub, h]

/-- A row of the relational `messages` table, pre-joined with `people` on
`from_person_id` (`email` is the sender's address). Dates are integer
timestamps in seconds. -/
structure MessageRow where
  id : Nat
  email : String
  subject : String
  date : Int

/-- The row predicate of the SQL query in `find_matching_messages`
(load_edrm_attachments.py): sender equality on lower-cased addresses, an
inclusive BETWEEN on the date window, and exact-lowered-subject equality or a
`LIKE` match against the prepared pattern. -/
def rowMatches (feL : List Char) (dateStart dateEnd : Int)
    (exactParam likeParam : List Char) (m : MessageRow) : Bool :=
  decide (lowerChars m.email.toList = feL)
  && decide (dateStart ≤ m.date) && decide (m.date ≤ dateEnd)
  && (decide (lowerChars m.subject.toList = exactParam)
      || likeMatch likeParam (lowerChars m.subject.toList))

/-- `EDRMLoader.find_matching_messages`: on an absent date or absent/empty
sender it returns no matches; otherwise it lower-cases the sender, normalizes
the subject, widens the date by twelve hours on both sides (43200 seconds),
and selects the distinct ids of the rows matching the query. The LIKE
parameter is percent-subject-percent when the normalized subject is
non-empty, and the empty pattern otherwise. -/
def findMatchingMessages (db : List MessageRow) (subject : String)
    (date : Option Int) (fromEmail : Option String) : List Nat :=
  match date, fromEmail with
  | some d, some fe =>
    if fe = "" then []
    else
      let feL := lowerChars fe.toList
      let ns := normalizeSubjectChars subject.toList
      let exactParam := lowerChars subject.toList
      let likeParam : List Char := if ns = [] then [] else '%' :: (ns ++ ['%'])
      ((db.filter (rowMatches feL (d - 43200) (d + 43200) exactParam likeParam)).map
        (fun m => m.id)).dedup
  | _, _ => []

theorem mem_findMatchingMessages_iff (db : List MessageRow) (subject : String)
    (d : Int) (fe : String) (mid : Nat) (hfe : fe ≠ "")
    (hns : normalizeSubjectChars subject.toList ≠ [])
    (hplain : plainChars (normalizeSubjectChars subject.toList) = true) :
    mid ∈ findMatchingMessages db subject (some d) (some fe) ↔
      ∃ m, m ∈ db ∧ m.id = mid
        ∧ lowerChars m.email.toList = lowerChars fe.toList
        ∧ d - 43200 ≤ m.date ∧ m.date ≤ d + 43200
        ∧ (lowerChars m.subject.toList = lowerChars subject.toList
           ∨ containsSub (normalizeSubjectChars subject.toList)
               (lowerChars m.subject.toList) = true) := by
  unfold findMatchingMessages
  simp only [if_neg hfe, if_neg hns, List.mem_dedup, List.mem_map, List.mem_filter,
    rowMatches, Bool.and_eq_true, Bool.or_eq_true, decide_eq_true_eq,
    likeMatch_contains (normalizeSubjectChars subject.toList) hplain]
  constructor
  · rintro ⟨m, ⟨hm, ⟨⟨h1, h2⟩, h3⟩, h4⟩, h5⟩
    exact ⟨m, hm, h5, h1, h2, h3, h4⟩
  · rintro ⟨m, hm, h5, h1, h2, h3, h4⟩
    exact ⟨m, ⟨hm, ⟨⟨h1, h2⟩, h3⟩, h4⟩, h5⟩

theorem findMatchingMessages_wrong_sender (db : List MessageRow) (subject : String)
    (d : Int) (fe : String)
    (h : ∀ m ∈ db, lowerChars m.email.toList ≠ lowerChars fe.toList) :
    findMatchingMessages db subject (some d) (some fe) = [] := by
  unfold findMatchingMessages
  by_cases hfe : fe = ""
  · simp [hfe]
  · simp only [if_neg hfe]
    have hf : db.filter (rowMatches (lowerChars fe.toList) (d - 43200) (d + 43200)
        (lowerChars subject.toList)
        (if normalizeSubjectChars subject.toList = [] then []
         else '%' :: (normalizeSubjectChars subject.toList ++ ['%']))) = [] := by
      rw [List.filter_eq_nil_iff]
      intro m hm
      simp only [rowMatches, Bool.and_eq_true, decide_eq_true_eq, not_and]
      intro hcontr
      exact absurd hcontr.1.1 (h m hm)
    rw [hf]
    rfl

theorem findMatchingMessages_six_hours (T : Int) (i : Nat) :
    i ∈ findMatchingMessages [⟨i, "alice@x.com", "Q3 Report", T⟩]
      "Re: Q3 Report" (some (T + 21600)) (some "alice@x.com") := by
  rw [mem_findMatchingMessages_iff _ _ _ _ _ (by decide) (by decide) (by decide)]
  refine ⟨⟨i, "alice@x.com", "Q3 Report", T⟩, List.mem_singleton.mpr rfl, rfl,
    rfl, ?_, ?_, Or.inr ?_⟩
  · show T + 21600 - 43200 ≤ T
    omega
  · show T ≤ T + 21600 + 43200
    omega
  · show containsSub (normalizeSubjectChars ("Re: Q3 Report" : String).toList)
      (lowerChars ("Q3 Report" : String).toList) = true
    decide

theorem findMatchingMessages_thirteen_hours (T : Int) (i : Nat) :
    i ∉ findMatchingMessages [⟨i, "alice@x.com", "Q3 Report", T⟩]
      "Re: Q3 Report" (some (T + 46800)) (some "alice@x.com") := by
  rw [mem_findMatchingMessages_iff _ _ _ _ _ (by decide) (by decide) (by decide)]
  rintro ⟨m, hm, -, -, hlo, hhi, -⟩
  rw [List.mem_singleton] at hm
  subst hm
  simp only at hlo
  omega

/-- C2 (amended): for a candidate with a present, non-empty sender and a
present timestamp, whose normalized subject is non-empty and free of the SQL
LIKE metacharacters (percent, underscore, backslash), a message id is
returned exactly when the sender address matches case-insensitively, the
message date lies in the inclusive twelve-hour window, and the lower-cased
message subject equals the lower-cased input subject or contains the
normalized subject as a substring. In particular a same-sender candidate at
sent_at plus six hours with a "Re: "-prefixed subject matches, one at plus
thirteen hours does not, and a candidate whose sender differs from every row
never matches, regardless of subject or time. -/
theorem c2_find_matching_characterization (db : List MessageRow) (subject : String)
    (d : Int) (fe : String) (mid : Nat) (hfe : fe ≠ "")
    (hns : normalizeSubjectChars subject.toList ≠ [])
    (hplain : plainChars (normalizeSubjectChars subject.toList) = true) :
    (mid ∈ findMatchingMessages db subject (some d) (some fe) ↔
      ∃ m, m ∈ db ∧ m.id = mid
        ∧ lowerChars m.email.toList = lowerChars fe.toList
        ∧ d - 43200 ≤ m.date ∧ m.date ≤ d + 43200
        ∧ (lowerChars m.subject.toList = lowerChars subject.toList
           ∨ containsSub (normalizeSubjectChars subject.toList)
               (lowerChars m.subject.toList) = true))
    ∧ (∀ (T : Int) (i : Nat),
        i ∈ findMatchingMessages [⟨i, "alice@x.com", "Q3 Report", T⟩]
          "Re: Q3 Report" (some (T + 21600)) (some "alice@x.com"))
    ∧ (∀ (T : Int) (i : Nat),
        i ∉ findMatchingMessages [⟨i, "alice@x.com", "Q3 Report", T⟩]
          "Re: Q3 Report" (some (T + 46800)) (some "alice@x.com"))
    ∧ (∀ (db' : List MessageRow) (subject' : String) (d' : Int) (fe' : String),
        (∀ m ∈ db', lowerChars m.email.toList ≠ lowerChars fe'.toList) →
        findMatchingMessages db' subject' (some d') (some fe') = []) :=
  ⟨mem_findMatchingMessages_iff db subject d fe mid hfe hns hplain,
   findMatchingMessages_six_hours,
   findMatchingMessages_thirteen_hours,
   fun db' subject' d' fe' h => findMatchingMessages_wrong_sender db' subject' d' fe' h⟩

/-- C2 witness: the characterization applied at a concrete database, subject
and window, yielding a concrete successful match. -/
theorem c2_find_matching_characterization_witness :
    5 ∈ findMatchingMessages [⟨5, "alice@x.com", "Q3 Report", 100⟩]
      "Re: Q3 Report" (some (100 + 21600)) (some "alice@x.com") :=
  (c2_find_matching_characterization [] "Q3 Report" 0 "a@b.c" 0
    (by decide) (by decide) (by decide)).2.1 100 5

/-- C2 counterexample: the claim as stated quantifies over every candidate.
For the candidate subject "Re:" the normalized subject is empty, and every
message subject contains the empty string as a substring, so the claim
predicts a match for a same-sender in-window message with subject "hello";
the code builds the empty LIKE pattern (not a contains check) and returns no
matches. -/
theorem c2_find_matching_counterexample :
    containsSub (normalizeSubjectChars ("Re:" : String).toList)
        (lowerChars ("hello" : String).toList) = true
    ∧ lowerChars ("alice@x.com" : String).toList
        = lowerChars ("alice@x.com" : String).toList
    ∧ ((0 : Int) - 43200 ≤ 0 ∧ (0 : Int) ≤ 0 + 43200)
    ∧ findMatchingMessages [⟨7, "alice@x.com", "hello", 0⟩]
        "Re:" (some 0) (some "alice@x.com") = [] := by
  refine ⟨by decide, rfl, by omega, ?_⟩
  decide

/-- C7: when either the sender address or the timestamp is absent (or the
sender is the empty string, which Python treats as absent), no messages are
matched, regardless of the subject and the database contents. -/
theorem findMatchingMessages_absent_empty (db : List MessageRow) (subject : String)
    (d : Option Int) (fe : Option String) :
    findMatchingMessages db subject none fe = []
    ∧ findMatchingMessages db subject d none = []
    ∧ findMatchingMessages db subject d (some "") = [] := by
  refine ⟨rfl, ?_, ?_⟩ <;> cases d <;> rfl

/-! ## Content-addressed attachment store (extract_edrm_attachments.py) -/

/-- The mutable state of `EDRMExtractor` that attachment extraction touches:
the per-run digest-to-path cache, the blob files written so far, and the
statistics counters. The cache is an association list written only when a
digest is absent, so its keys stay distinct. -/
structure ExtractState where
  hashCache : List (String × String)
  files : List String
  extracted : Nat
  deduplicated : Nat
  tooLarge : Nat
  bytesExtracted : Nat
deriving Repr, DecidableEq

/-- The per-attachment record fields that `_extract_attachment_file` reads or
writes. -/
structure AttachmentRec where
  extension : String
  sha256_hash : String
  storage_path : String
deriving Repr, DecidableEq

/-- Python dict membership plus access: the cached storage path of a digest. -/
def lookupCache (cache : List (String × String)) (h : String) : Option String :=
  match cache.find? (fun kv => decide (kv.1 = h)) with
  | some kv => some kv.2
  | none => none

/-- `EDRMExtractor._get_storage_path`: two-level prefix sharding, first two
hex characters, next two, then the full digest plus the extension. -/
def getStoragePath (dir h ext : String) : String :=
  dir ++ "/" ++ h.take 2 ++ "/" ++ (h.drop 2).take 2 ++ "/" ++ h ++ ext

/-- `EDRMExtractor._extract_attachment_file`, from the point where the payload
bytes are in hand. The size check precedes hashing; on a cache hit only the
deduplicated counter moves and the cached path is reused; on a miss the blob
is written, the cache gains the digest, and the extracted and byte counters
move. `sha256` is the external hash function (Python hashlib), passed in. -/
def extractAttachmentFile (sha256 : List Nat → String) (dir : String)
    (maxSize : Nat) (att : AttachmentRec) (data : List Nat)
    (s : ExtractState) : ExtractState × AttachmentRec × Bool :=
  if maxSize < data.length then
    ({ s with tooLarge := s.tooLarge + 1 }, att, false)
  else
    let h := sha256 data
    let att1 := { att with sha256_hash := h }
    match lookupCache s.hashCache h with
    | some p =>
      ({ s with deduplicated := s.deduplicated + 1 },
       { att1 with storage_path := p }, true)
    | none =>
      let p := getStoragePath dir h att.extension
      ({ s with
          files := p :: s.files,
          hashCache := (h, p) :: s.hashCache,
          extracted := s.extracted + 1,
          bytesExtracted := s.bytesExtracted + data.length },
       { att1 with storage_path := p }, true)

/-- N repeated puts of the same payload; returns the final state and the
(digest, storage path) pair each call reported. -/
def extractIter (sha256 : List Nat → String) (dir : String) (maxSize : Nat)
    (att : AttachmentRec) (data : List Nat) :
    Nat → ExtractState → ExtractState × List (String × String)
  | 0, s => (s, [])
  | n + 1, s =>
    let r := extractAttachmentFile sha256 dir maxSize att data s
    let rest := extractIter sha256 dir maxSize att data n r.1
    (rest.1, (r.2.1.sha256_hash, r.2.1.storage_path) :: rest.2)

/-- The per-unit loop of `EDRMExtractor.process_zip`: each parsed attachment
is pushed through `_extract_attachment_file` in turn, and is appended to the
run's results only when extraction reported success. -/
def processUnit (sha256 : List Nat → String) (dir : String) (maxSize : Nat) :
    List (AttachmentRec × List Nat) → ExtractState →
    ExtractState × List AttachmentRec
  | [], s => (s, [])
  | (att, data) :: rest, s =>
    let r := extractAttachmentFile sha256 dir maxSize att data s
    let r' := processUnit sha256 dir maxSize rest r.1
    (r'.1, if r.2.2 then r.2.1 :: r'.2 else r'.2)

theorem extractAttachmentFile_hit (sha256 : List Nat → String) (dir : String)
    (maxSize : Nat) (att : AttachmentRec) (data : List Nat) (s : ExtractState)
    (p : String) (hsize : data.length ≤ maxSize)
    (hhit : lookupCache s.hashCache (sha256 data) = some p) :
    extractAttachmentFile sha256 dir maxSize att data s
      = ({ s with deduplicated := s.deduplicated + 1 },
         { att with sha256_hash := sha256 data, storage_path := p }, true) := by
  unfold extractAttachmentFile
  rw [if_neg (by omega)]
  simp only [hhit]

theorem extractAttachmentFile_miss (sha256 : List Nat → String) (dir : String)
    (maxSize : Nat) (att : AttachmentRec) (data : List Nat) (s : ExtractState)
    (hsize : data.length ≤ maxSize)
    (hmiss : lookupCache s.hashCache (sha256 data) = none) :
    extractAttachmentFile sha256 dir maxSize att data s
      = ({ s with
            files := getStoragePath dir (sha256 data) att.extension :: s.files,
            hashCache := (sha256 data,
              getStoragePath dir (sha256 data) att.extension) :: s.hashCache,
            extracted := s.extracted + 1,
            bytesExtracted := s.bytesExtracted + data.length },
         { att with
            sha256_hash := sha256 data,
            storage_path := getStoragePath dir (sha256 data) att.extension },
         true) := by
  unfold extractAttachmentFile
  rw [if_neg (by omega)]
  simp only [hmiss]

theorem extractIter_all_hits (sha256 : List Nat → String) (dir : String)
    (maxSize : Nat) (att : AttachmentRec) (data : List Nat) (p : String)
    (hsize : data.length ≤ maxSize) :
    ∀ (n : Nat) (s : ExtractState),
      lookupCache s.hashCache (sha256 data) = some p →
      extractIter sha256 dir maxSize att data n s
        = ({ s with deduplicated := s.deduplicated + n },
           List.replicate n (sha256 data, p)) := by
  intro n
  induction n with
  | zero => intro s _; simp [extractIter]
  | succ k ih =>
    intro s hhit
    have h1 := extractAttachmentFile_hit sha256 dir maxSize att data s p hsize hhit
    have h2 := ih { s with deduplicated := s.deduplicated + 1 } hhit
    simp only [extractIter, h1, h2, List.replicate]
    refine Prod.ext ?_ rfl
    show ({ s with deduplicated := s.deduplicated + 1 + k } : ExtractState)
      = { s with deduplicated := s.deduplicated + (k + 1) }
    congr 1
    omega

theorem lookupCache_cons_self (c : List (String × String)) (h p : String) :
    lookupCache ((h, p) :: c) h = some p := by
  simp [lookupCache, List.find?_cons_of_pos]

theorem lookupCache_none_countP (c : List (String × String)) (h : String)
    (hm : lookupCache c h = none) :
    c.countP (fun kv => decide (kv.1 = h)) = 0 := by
  rw [List.countP_eq_zero]
  intro kv hkv
  unfold lookupCache at hm
  cases hfind : c.find? (fun kv => decide (kv.1 = h)) with
  | some val => rw [hfind] at hm; cases hm
  | none => simpa using List.find?_eq_none.mp hfind kv hkv

/-- C1: putting the same payload N times (N at least 1) through the store,
starting from a state whose cache does not yet know the digest, writes
exactly one new blob file, adds exactly one index entry for the digest,
increments the extracted counter once and the deduplicated counter N minus
one times, leaves the byte counter bumped once, and reports the same digest
and storage path on every call. -/
theorem c1_cas_put_idempotent (sha256 : List Nat → String) (dir : String)
    (maxSize : Nat) (att : AttachmentRec) (data : List Nat) (s : ExtractState)
    (n : Nat) (hsize : data.length ≤ maxSize)
    (hfresh : lookupCache s.hashCache (sha256 data) = none) (hn : 1 ≤ n) :
    extractIter sha256 dir maxSize att data n s
      = ({ s with
            files := getStoragePath dir (sha256 data) att.extension :: s.files,
            hashCache := (sha256 data,
              getStoragePath dir (sha256 data) att.extension) :: s.hashCache,
            extracted := s.extracted + 1,
            deduplicated := s.deduplicated + (n - 1),
            bytesExtracted := s.bytesExtracted + data.length },
         List.replicate n (sha256 data,
           getStoragePath dir (sha256 data) att.extension))
    ∧ (extractIter sha256 dir maxSize att data n s).1.hashCache.countP
        (fun kv => decide (kv.1 = sha256 data)) = 1 := by
  obtain ⟨m, rfl⟩ : ∃ m, n = m + 1 := ⟨n - 1, by omega⟩
  have hmain : extractIter sha256 dir maxSize att data (m + 1) s
      = ({ s with
            files := getStoragePath dir (sha256 data) att.extension :: s.files,
            hashCache := (sha256 data,
              getStoragePath dir (sha256 data) att.extension) :: s.hashCache,
            extracted := s.extracted + 1,
            deduplicated := s.deduplicated + (m + 1 - 1),
            bytesExtracted := s.bytesExtracted + data.length },
         List.replicate (m + 1) (sha256 data,
           getStoragePath dir (sha256 data) att.extension)) := by
    simp only [extractIter,
      extractAttachmentFile_miss sha256 dir maxSize att data s hsize hfresh]
    rw [extractIter_all_hits sha256 dir maxSize att data
      (getStoragePath dir (sha256 data) att.extension) hsize m _
      (lookupCache_cons_self s.hashCache (sha256 data)
        (getStoragePath dir (sha256 data) att.extension))]
    rw [List.replicate_succ]
    simp only [Nat.add_sub_cancel]
  refine ⟨hmain, ?_⟩
  rw [hmain]
  simp only [List.countP_cons, decide_eq_true_eq]
  rw [lookupCache_none_countP s.hashCache (sha256 data) hfresh]
  simp

/-- C1 witness: three puts of a two-byte payload into an empty store leave one
cache entry for its digest. -/
theorem c1_cas_put_idempotent_witness :
    (extractIter (fun _ => "abcd") "out" 10 ⟨".txt", "", ""⟩ [1, 2] 3
        ⟨[], [], 0, 0, 0, 0⟩).1.hashCache.countP
      (fun kv => decide (kv.1 = "abcd")) = 1 :=
  (c1_cas_put_idempotent (fun _ => "abcd") "out" 10 ⟨".txt", "", ""⟩ [1, 2]
    ⟨[], [], 0, 0, 0, 0⟩ 3 (by decide) (by decide) (by decide)).2

/-- C10: on a dedup hit (digest already in the per-run cache, payload within
the size bound) the put leaves the store unchanged except for the
deduplicated counter: no file is written, the cache and the extracted, byte
and too-large counters are untouched, the deduplicated counter moves by one,
and the attachment is assigned the previously cached storage path. -/
theorem c10_dedup_hit_frame (sha256 : List Nat → String) (dir : String)
    (maxSize : Nat) (att : AttachmentRec) (data : List Nat) (s : ExtractState)
    (p : String) (hsize : data.length ≤ maxSize)
    (hhit : lookupCache s.hashCache (sha256 data) = some p) :
    (extractAttachmentFile sha256 dir maxSize att data s).1.files = s.files
    ∧ (extractAttachmentFile sha256 dir maxSize att data s).1.hashCache = s.hashCache
    ∧ (extractAttachmentFile sha256 dir maxSize att data s).1.extracted = s.extracted
    ∧ (extractAttachmentFile sha256 dir maxSize att data s).1.bytesExtracted
        = s.bytesExtracted
    ∧ (extractAttachmentFile sha256 dir maxSize att data s).1.tooLarge = s.tooLarge
    ∧ (extractAttachmentFile sha256 dir maxSize att data s).1.deduplicated
        = s.deduplicated + 1
    ∧ (extractAttachmentFile sha256 dir maxSize att data s).2.1.storage_path = p
    ∧ (extractAttachmentFile sha256 dir maxSize att data s).2.1.sha256_hash
        = sha256 data
    ∧ (extractAttachmentFile sha256 dir maxSize att data s).2.2 = true := by
  rw [extractAttachmentFile_hit sha256 dir maxSize att data s p hsize hhit]
  exact ⟨rfl, rfl, rfl, rfl, rfl, rfl, rfl, rfl, rfl⟩

/-- C10 witness: a dedup hit against a store already holding the digest. -/
theorem c10_dedup_hit_frame_witness :
    (extractAttachmentFile (fun _ => "abcd") "out" 10 ⟨".txt", "", ""⟩ [1, 2]
        ⟨[("abcd", "cp")], ["cp"], 1, 0, 0, 2⟩).2.1.storage_path = "cp"
    ∧ (extractAttachmentFile (fun _ => "abcd") "out" 10 ⟨".txt", "", ""⟩ [1, 2]
        ⟨[("abcd", "cp")], ["cp"], 1, 0, 0, 2⟩).1.deduplicated = 1 :=
  ⟨(c10_dedup_hit_frame (fun _ => "abcd") "out" 10 ⟨".txt", "", ""⟩ [1, 2]
      ⟨[("abcd", "cp")], ["cp"], 1, 0, 0, 2⟩ "cp" (by decide) (by decide)).2.2.2.2.2.2.1,
   (c10_dedup_hit_frame (fun _ => "abcd") "out" 10 ⟨".txt", "", ""⟩ [1, 2]
      ⟨[("abcd", "cp")], ["cp"], 1, 0, 0, 2⟩ "cp" (by decide) (by decide)).2.2.2.2.2.1⟩

/-- C4 (amended): a payload exceeding the maximum size is not persisted and
is counted under the too-large statistic, the digest is NOT computed (the
size check runs before hashing, so the attachment record is returned
untouched), and the remaining sibling attachments of the unit are still
processed from the bumped state. -/
theorem c4_oversize_skipped (sha256 : List Nat → String) (dir : String)
    (maxSize : Nat) (att : AttachmentRec) (data : List Nat) (s : ExtractState)
    (rest : List (AttachmentRec × List Nat)) (hover : maxSize < data.length) :
    extractAttachmentFile sha256 dir maxSize att data s
      = ({ s with tooLarge := s.tooLarge + 1 }, att, false)
    ∧ processUnit sha256 dir maxSize ((att, data) :: rest) s
      = processUnit sha256 dir maxSize rest { s with tooLarge := s.tooLarge + 1 } := by
  have h : extractAttachmentFile sha256 dir maxSize att data s
      = ({ s with tooLarge := s.tooLarge + 1 }, att, false) := by
    unfold extractAttachmentFile
    rw [if_pos hover]
  exact ⟨h, by simp [processUnit, h]⟩

/-- C4 witness: a one-byte payload against a zero maximum size. -/
theorem c4_oversize_skipped_witness :
    extractAttachmentFile (fun _ => "d0d0") "out" 0 ⟨".txt", "", ""⟩ [1]
        ⟨[], [], 0, 0, 0, 0⟩
      = (⟨[], [], 0, 0, 1, 0⟩, ⟨".txt", "", ""⟩, false) :=
  (c4_oversize_skipped (fun _ => "d0d0") "out" 0 ⟨".txt", "", ""⟩ [1]
    ⟨[], [], 0, 0, 0, 0⟩ [] (by decide)).1

/-- C4 counterexample: the claim asserts the digest is still computed for an
oversize payload; in the code the size check precedes hashing, so the
returned attachment record's digest field is left empty rather than set to
the payload's digest. -/
theorem c4_oversize_counterexample :
    (extractAttachmentFile (fun _ => "d0d0") "out" 0 ⟨".txt", "", ""⟩ [1]
        ⟨[], [], 0, 0, 0, 0⟩).2.1.sha256_hash = ""
    ∧ (extractAttachmentFile (fun _ => "d0d0") "out" 0 ⟨".txt", "", ""⟩ [1]
        ⟨[], [], 0, 0, 0, 0⟩).2.1.sha256_hash ≠ (fun _ => "d0d0") [1]
    ∧ (extractAttachmentFile (fun _ => "d0d0") "out" 0 ⟨".txt", "", ""⟩ [1]
        ⟨[], [], 0, 0, 0, 0⟩).1.tooLarge = 1 := by
  refine ⟨rfl, ?_, rfl⟩
  decide

/-! ## Message-attachment link rows
(load_edrm_attachments.py `link_attachment_to_message` and the identical
ON CONFLICT DO NOTHING insert in load_to_postgres.py `load_batch`) -/

/-- A row of the `message_attachments` table. -/
structure LinkRow where
  message_id : Nat
  attachment_id : Nat
  filename : String
  attachment_order : Nat
deriving Repr, DecidableEq

/-- The number of rows carrying a given (message, attachment, order) triple. -/
def tripleCount (links : List LinkRow) (mid aid ord : Nat) : Nat :=
  links.countP (fun r =>
    decide (r.message_id = mid ∧ r.attachment_id = aid ∧ r.attachment_order = ord))

/-- `INSERT ... ON CONFLICT (message_id, attachment_id, attachment_order) DO
NOTHING`: when a row with the triple already exists the insert is skipped
without error; either way the call reports success. -/
def linkAttachmentToMessage (links : List LinkRow) (mid aid : Nat)
    (fn : String) (ord : Nat) : List LinkRow × Bool :=
  if links.any (fun r =>
      decide (r.message_id = mid ∧ r.attachment_id = aid ∧ r.attachment_order = ord))
  then (links, true)
  else (links ++ [⟨mid, aid, fn, ord⟩], true)

/-- N repeated link calls with the same arguments. -/
def linkIter (mid aid : Nat) (fn : String) (ord : Nat) :
    Nat → List LinkRow → List LinkRow
  | 0, links => links
  | n + 1, links => linkIter mid aid fn ord n
      (linkAttachmentToMessage links mid aid fn ord).1

theorem linkAttachmentToMessage_fixed (links : List LinkRow) (mid aid : Nat)
    (fn : String) (ord : Nat)
    (h : links.any (fun r =>
      decide (r.message_id = mid ∧ r.attachment_id = aid ∧ r.attachment_order = ord))
      = true) :
    linkAttachmentToMessage links mid aid fn ord = (links, true) := by
  unfold linkAttachmentToMessage
  rw [if_pos h]

theorem linkAttachmentToMessage_any_after (links : List LinkRow) (mid aid : Nat)
    (fn : String) (ord : Nat) :
    (linkAttachmentToMessage links mid aid fn ord).1.any (fun r =>
      decide (r.message_id = mid ∧ r.attachment_id = aid ∧ r.attachment_order = ord))
      = true := by
  unfold linkAttachmentToMessage
  by_cases h : links.any (fun r =>
      decide (r.message_id = mid ∧ r.attachment_id = aid ∧ r.attachment_order = ord))
      = true
  · rw [if_pos h]
    exact h
  · rw [if_neg h]
    simp

theorem linkIter_stable (mid aid : Nat) (fn : String) (ord : Nat) :
    ∀ (n : Nat) (links : List LinkRow),
      links.any (fun r =>
        decide (r.message_id = mid ∧ r.attachment_id = aid ∧ r.attachment_order = ord))
        = true →
      linkIter mid aid fn ord n links = links := by
  intro n
  induction n with
  | zero => intro links _; rfl
  | succ k ih =>
    intro links h
    simp only [linkIter, linkAttachmentToMessage_fixed links mid aid fn ord h]
    exact ih links h

/-- C5: inserting the same (message, attachment, order) triple any number of
times N (N at least 1) yields the same table as inserting it once, the table
then carries the triple on at most one row more than before (exactly one when
absent initially), and a further repeated insert is a benign success that
changes nothing. -/
theorem c5_link_unique (links : List LinkRow) (mid aid : Nat) (fn : String)
    (ord : Nat) (n : Nat) (hn : 1 ≤ n) :
    linkIter mid aid fn ord n links
      = (linkAttachmentToMessage links mid aid fn ord).1
    ∧ tripleCount (linkIter mid aid fn ord n links) mid aid ord
      = max 1 (tripleCount links mid aid ord)
    ∧ linkAttachmentToMessage (linkIter mid aid fn ord n links) mid aid fn ord
      = (linkIter mid aid fn ord n links, true) := by
  obtain ⟨m, rfl⟩ : ∃ m, n = m + 1 := ⟨n - 1, by omega⟩
  have hone : linkIter mid aid fn ord (m + 1) links
      = (linkAttachmentToMessage links mid aid fn ord).1 := by
    simp only [linkIter]
    exact linkIter_stable mid aid fn ord m _
      (linkAttachmentToMessage_any_after links mid aid fn ord)
  have hany := linkAttachmentToMessage_any_after links mid aid fn ord
  refine ⟨hone, ?_, ?_⟩
  · rw [hone]
    unfold linkAttachmentToMessage
    by_cases h : links.any (fun r =>
        decide (r.message_id = mid ∧ r.attachment_id = aid ∧ r.attachment_order = ord))
        = true
    · rw [if_pos h]
      show tripleCount links mid aid ord = max 1 (tripleCount links mid aid ord)
      have : 1 ≤ tripleCount links mid aid ord := by
        rw [List.any_eq_true] at h
        obtain ⟨r, hr, hp⟩ := h
        exact List.countP_pos_iff.mpr ⟨r, hr, hp⟩
      omega
    · rw [if_neg h]
      have h0 : tripleCount links mid aid ord = 0 := by
        rw [tripleCount, List.countP_eq_zero]
        intro r hr
        exact fun hp => h (List.any_eq_true.mpr ⟨r, hr, hp⟩)
      show tripleCount (links ++ [⟨mid, aid, fn, ord⟩]) mid aid ord
        = max 1 (tripleCount links mid aid ord)
      rw [h0]
      rw [tripleCount] at h0 ⊢
      rw [List.countP_append, h0]
      simp [List.countP_cons]
  · rw [hone]
    exact linkAttachmentToMessage_fixed _ mid aid fn ord hany

/-- C5 witness: two inserts of the same triple into an empty table leave
exactly one row. -/
theorem c5_link_unique_witness :
    linkIter 1 2 "a.pdf" 1 2 [] = [⟨1, 2, "a.pdf", 1⟩]
    ∧ tripleCount (linkIter 1 2 "a.pdf" 1 2 []) 1 2 1 = 1 := by
  have h := c5_link_unique [] 1 2 "a.pdf" 1 2 (by decide)
  constructor
  · rw [h.1]
    decide
  · rw [h.2.1]
    decide

/-- The inner loop of `EDRMLoader.load`: one attachment is linked to every
matched message id in turn. -/
def linkToAllMessages (mids : List Nat) (aid : Nat) (fn : String) (ord : Nat)
    (links : List LinkRow) : List LinkRow :=
  mids.foldl (fun ls mid => (linkAttachmentToMessage ls mid aid fn ord).1) links

theorem tripleCount_link_mono (links : List LinkRow) (mid aid : Nat)
    (fn : String) (ord : Nat) (mid' aid' ord' : Nat) :
    tripleCount links mid' aid' ord'
      ≤ tripleCount (linkAttachmentToMessage links mid aid fn ord).1 mid' aid' ord' := by
  unfold linkAttachmentToMessage
  by_cases h : links.any (fun r =>
      decide (r.message_id = mid ∧ r.attachment_id = aid ∧ r.attachment_order = ord))
      = true
  · rw [if_pos h]
  · rw [if_neg h]
    rw [tripleCount, tripleCount, List.countP_append]
    omega

theorem tripleCount_link_self (links : List LinkRow) (mid aid : Nat)
    (fn : String) (ord : Nat) :
    1 ≤ tripleCount (linkAttachmentToMessage links mid aid fn ord).1 mid aid ord := by
  have h := linkAttachmentToMessage_any_after links mid aid fn ord
  rw [List.any_eq_true] at h
  obtain ⟨r, hr, hp⟩ := h
  exact List.countP_pos_iff.mpr ⟨r, hr, hp⟩

theorem tripleCount_foldl_mono (aid : Nat) (fn : String) (ord : Nat)
    (mid' aid' ord' : Nat) :
    ∀ (mids : List Nat) (links : List LinkRow),
      tripleCount links mid' aid' ord'
        ≤ tripleCount (linkToAllMessages mids aid fn ord links) mid' aid' ord' := by
  intro mids
  induction mids with
  | nil => intro links; exact Nat.le_refl _
  | cons m rest ih =>
    intro links
    calc tripleCount links mid' aid' ord'
        ≤ tripleCount (linkAttachmentToMessage links m aid fn ord).1 mid' aid' ord' :=
          tripleCount_link_mono links m aid fn ord mid' aid' ord'
      _ ≤ _ := ih _

/-- C8: when the matcher returns several message ids, no single best match is
chosen — after the linking loop, every returned message id carries a link row
for the attachment (with the attachment's id and order), and the loop is a
plain fold that treats multiplicity as success, never as an error. -/
theorem c8_link_all_matches (mids : List Nat) (aid : Nat) (fn : String)
    (ord : Nat) (links : List LinkRow) (mid : Nat) (hmid : mid ∈ mids) :
    1 ≤ tripleCount (linkToAllMessages mids aid fn ord links) mid aid ord := by
  induction mids generalizing links with
  | nil => cases hmid
  | cons m rest ih =>
    rcases List.mem_cons.mp hmid with hEq | hMem
    · subst hEq
      calc 1 ≤ tripleCount (linkAttachmentToMessage links mid aid fn ord).1 mid aid ord :=
            tripleCount_link_self links mid aid fn ord
        _ ≤ _ := tripleCount_foldl_mono aid fn ord mid aid ord rest _
    · exact ih _ hMem

/-- C8 witness: linking one attachment to both matched messages. -/
theorem c8_link_all_matches_witness :
    1 ≤ tripleCount (linkToAllMessages [3, 4] 9 "a.pdf" 1 []) 4 9 1 :=
  c8_link_all_matches [3, 4] 9 "a.pdf" 1 [] 4 (by decide)

/-! ## Filename sanitization (extract_emails.py `EmailParser._sanitize_filename`) -/

/-- The characters the sanitizer's character class replaces with an
underscore. -/
def dangerousChar (c : Char) : Bool :=
  c == '<' || c == '>' || c == ':' || c == '"' || c == '|' || c == '?' || c == '*'

/-- Index of the last dot in a character list, if any (`str.rfind`). -/
def lastDotIdxAux : List Char → Nat → Option Nat
  | [], _ => none
  | c :: t, i =>
    match lastDotIdxAux t (i + 1) with
    | some j => some j
    | none => if c = '.' then some i else none

/-- `os.path.splitext` on a name already free of path separators: split at the
last dot, unless every character before it is itself a dot (so ".bashrc" has
no extension). -/
def splitextChars (l : List Char) : List Char × List Char :=
  match lastDotIdxAux l 0 with
  | none => (l, [])
  | some n =>
    if (l.take n).any (fun c => decide (c ≠ '.')) then (l.take n, l.drop n)
    else (l, [])

/-- Python slicing `l[:k]` with a possibly negative bound: a negative bound
counts from the end. -/
def pySliceTake (l : List Char) (k : Int) : List Char :=
  if 0 ≤ k then l.take k.toNat else l.take (l.length - (-k).toNat)

/-- `EmailParser._sanitize_filename`: empty input falls back to "unnamed";
otherwise backslashes become slashes and only the last path component is
kept, control characters (code points below 32) are removed, the dangerous
characters are replaced by underscores, names longer than 255 are cut back
preserving the extension, and the stripped result falls back to "unnamed"
when empty. -/
def sanitizeFilename (l : List Char) : List Char :=
  if l = [] then "unnamed".toList
  else
    let f1 := l.map (fun c => if c = '\\' then '/' else c)
    let f2 := (f1.reverse.takeWhile (fun c => decide (c ≠ '/'))).reverse
    let f3 := f2.filter (fun c => decide (32 ≤ c.toNat))
    let f4 := f3.map (fun c => if dangerousChar c then '_' else c)
    let f5 :=
      if 255 < f4.length then
        pySliceTake (splitextChars f4).1 (255 - ((splitextChars f4).2.length : Int))
          ++ (splitextChars f4).2
      else f4
    let f6 := pyStripChars f5
    if f6 = [] then "unnamed".toList else f6

theorem mem_of_mem_takeWhileP (p : Char → Bool) :
    ∀ (l : List Char) (x : Char), x ∈ l.takeWhile p → p x = true ∧ x ∈ l := by
  intro l
  induction l with
  | nil => intro x hx; cases hx
  | cons a t ih =>
    intro x hx
    by_cases h : p a
    · rw [List.takeWhile_cons, if_pos h] at hx
      rcases List.mem_cons.mp hx with rfl | hx'
      · exact ⟨h, List.mem_cons_self _ _⟩
      · obtain ⟨h1, h2⟩ := ih x hx'
        exact ⟨h1, List.mem_cons_of_mem _ h2⟩
    · rw [List.takeWhile_cons, if_neg h] at hx
      cases hx

theorem mem_of_mem_dropWhileP (p : Char → Bool) :
    ∀ (l : List Char) (x : Char), x ∈ l.dropWhile p → x ∈ l := by
  intro l
  induction l with
  | nil => intro x hx; cases hx
  | cons a t ih =>
    intro x hx
    by_cases h : p a
    · rw [List.dropWhile_cons, if_pos h] at hx
      exact List.mem_cons_of_mem _ (ih x hx)
    · rw [List.dropWhile_cons, if_neg h] at hx
      exact hx

theorem mem_of_mem_pyStripChars (l : List Char) (x : Char)
    (hx : x ∈ pyStripChars l) : x ∈ l := by
  unfold pyStripChars at hx
  rw [List.mem_reverse] at hx
  have h1 := mem_of_mem_dropWhileP pyIsSpace _ x hx
  rw [List.mem_reverse] at h1
  exact mem_of_mem_dropWhileP pyIsSpace _ x h1

theorem mem_of_mem_splitextChars (l : List Char) (c : Char) :
    (c ∈ (splitextChars l).1 → c ∈ l) ∧ (c ∈ (splitextChars l).2 → c ∈ l) := by
  unfold splitextChars
  cases h : lastDotIdxAux l 0 with
  | none =>
    refine ⟨fun hc => hc, fun hc => ?_⟩
    cases hc
  | some n =>
    dsimp only
    by_cases hany : (l.take n).any (fun c => decide (c ≠ '.')) = true
    · rw [if_pos hany]
      exact ⟨fun hc => List.mem_of_mem_take hc, fun hc => List.mem_of_mem_drop hc⟩
    · rw [if_neg hany]
      refine ⟨fun hc => hc, fun hc => ?_⟩
      cases hc

theorem mem_of_mem_pySliceTake (l : List Char) (k : Int) (c : Char)
    (hc : c ∈ pySliceTake l k) : c ∈ l := by
  unfold pySliceTake at hc
  by_cases h : (0 : Int) ≤ k
  · rw [if_pos h] at hc
    exact List.mem_of_mem_take hc
  · rw [if_neg h] at hc
    exact List.mem_of_mem_take hc

/-- C9: for every input, the sanitized filename holds no path separator, no
control character (code point below 32), none of the dangerous characters,
and is never empty; the empty input yields the fallback "unnamed". -/
theorem c9_sanitize_filename_safe (l : List Char) :
    (∀ c ∈ sanitizeFilename l,
      c ≠ '/' ∧ c ≠ '\\' ∧ 32 ≤ c.toNat ∧ dangerousChar c = false)
    ∧ sanitizeFilename l ≠ []
    ∧ sanitizeFilename [] = "unnamed".toList := by
  have hunnamed : ∀ c ∈ ("unnamed" : String).toList,
      c ≠ '/' ∧ c ≠ '\\' ∧ 32 ≤ c.toNat ∧ dangerousChar c = false := by decide
  by_cases hl : l = []
  · subst hl
    exact ⟨hunnamed, by decide, rfl⟩
  · unfold sanitizeFilename
    rw [if_neg hl]
    set f1 := l.map (fun c => if c = '\\' then '/' else c) with hf1
    set f2 := (f1.reverse.takeWhile (fun c => decide (c ≠ '/'))).reverse with hf2
    set f3 := f2.filter (fun c => decide (32 ≤ c.toNat)) with hf3
    set f4 := f3.map (fun c => if dangerousChar c then '_' else c) with hf4
    have h4 : ∀ c ∈ f4, c ≠ '/' ∧ c ≠ '\\' ∧ 32 ≤ c.toNat ∧ dangerousChar c = false := by
      intro c hc
      rw [hf4, List.mem_map] at hc
      obtain ⟨c0, hc0, hval⟩ := hc
      by_cases hd : dangerousChar c0 = true
      · rw [hd] at hval
        simp only [if_true] at hval
        subst hval
        decide
      · rw [Bool.not_eq_true] at hd
        rw [hd] at hval
        simp only [Bool.false_eq_true, if_false] at hval
        subst hval
        rw [hf3, List.mem_filter, decide_eq_true_eq] at hc0
        obtain ⟨hc2, h32⟩ := hc0
        rw [hf2, List.mem_reverse] at hc2
        obtain ⟨hslash, hmem1⟩ :=
          mem_of_mem_takeWhileP (fun c => decide (c ≠ '/')) f1.reverse c0 hc2
        rw [decide_eq_true_eq] at hslash
        rw [List.mem_reverse, hf1, List.mem_map] at hmem1
        obtain ⟨c1, _, hc1val⟩ := hmem1
        have hnb : c0 ≠ '\\' := by
          by_cases hb : c1 = '\\'
          · rw [hb] at hc1val
            simp only [if_true] at hc1val
            exact absurd hc1val.symm hslash
          · rw [if_neg hb] at hc1val
            rw [← hc1val]
            exact hb
        exact ⟨hslash, hnb, h32, hd⟩
    set f5 := if 255 < f4.length then
        pySliceTake (splitextChars f4).1 (255 - ((splitextChars f4).2.length : Int))
          ++ (splitextChars f4).2
      else f4 with hf5
    have h5 : ∀ c ∈ f5, c ≠ '/' ∧ c ≠ '\\' ∧ 32 ≤ c.toNat ∧ dangerousChar c = false := by
      intro c hc
      rw [hf5] at hc
      by_cases hlen : 255 < f4.length
      · rw [if_pos hlen] at hc
        rcases List.mem_append.mp hc with h | h
        · exact h4 c ((mem_of_mem_splitextChars f4 c).1
            (mem_of_mem_pySliceTake _ _ c h))
        · exact h4 c ((mem_of_mem_splitextChars f4 c).2 h)
      · rw [if_neg hlen] at hc
        exact h4 c hc
    by_cases h6 : pyStripChars f5 = []
    · rw [if_pos h6]
      exact ⟨hunnamed, by decide, rfl⟩
    · rw [if_neg h6]
      exact ⟨fun c hc => h5 c (mem_of_mem_pyStripChars f5 c hc), h6, rfl⟩

/-- C9 witness: a path-bearing input sanitizes to a non-empty name, and the
character b of the result is safe. -/
theorem c9_sanitize_filename_safe_witness :
    sanitizeFilename ("a/b.txt" : String).toList ≠ []
    ∧ ('b' ≠ '/' ∧ 'b' ≠ '\\' ∧ 32 ≤ 'b'.toNat ∧ dangerousChar 'b' = false) :=
  ⟨(c9_sanitize_filename_safe ("a/b.txt" : String).toList).2.1,
   (c9_sanitize_filename_safe ("a/b.txt" : String).toList).1 'b' (by decide)⟩

/-! ## Batch orchestration with a resume ledger (process_all_edrm.py `main`) -/

/-- Consecutive slices of size `k` (the batching loop over
`to_process[start:end]`). Python crashes on a zero batch size (division by
zero computing the batch total); that out-of-contract case is modelled as
producing no batches, and every theorem assumes a positive size. -/
def chunkList : Nat → List String → List (List String)
  | _, [] => []
  | 0, _ :: _ => []
  | k + 1, x :: xs =>
    (x :: xs).take (k + 1) :: chunkList (k + 1) ((x :: xs).drop (k + 1))
termination_by _ l => l.length
decreasing_by
  simp only [List.length_drop, List.length_cons]
  omega

/-- The ledger the run works against: reset to empty under force. -/
def effectiveLedger (ledger : List String) (force : Bool) : List String :=
  if force then [] else ledger

/-- The input files not yet in the effective ledger. -/
def toProcessList (zips ledger : List String) (force : Bool) : List String :=
  zips.filter (fun z => !((effectiveLedger ledger force).contains z))

/-- One batch: extraction runs first; only if it succeeds does loading run;
only if both succeed are the batch's files added to the processed ledger. -/
def runBatch (extractOk loadOk : List String → Bool) (ledger : List String)
    (b : List String) : List String :=
  if extractOk b then (if loadOk b then ledger ++ b else ledger) else ledger

/-- `main` of process_all_edrm.py, with the two subprocess invocations
abstracted as boolean outcomes per batch: under force the saved ledger is
ignored, the files not in the effective ledger are selected, and if nothing
remains the run returns at once; otherwise the remainder is processed in
batches of `k` and each fully successful batch is appended to the ledger.
Returns the final ledger and the list of dispatched batches. -/
def runPipeline (extractOk loadOk : List String → Bool) (k : Nat)
    (zips ledger : List String) (force : Bool) :
    List String × List (List String) :=
  if toProcessList zips ledger force = [] then (effectiveLedger ledger force, [])
  else
    ((chunkList k (toProcessList zips ledger force)).foldl
        (runBatch extractOk loadOk) (effectiveLedger ledger force),
     chunkList k (toProcessList zips ledger force))

theorem chunkList_flatten (k : Nat) (hk : 0 < k) :
    ∀ (n : Nat) (l : List String), l.length ≤ n → (chunkList k l).flatten = l := by
  intro n
  induction n with
  | zero =>
    intro l hl
    have h0 : l = [] := List.length_eq_zero.mp (Nat.le_zero.mp hl)
    subst h0
    simp [chunkList]
  | succ m ih =>
    intro l hl
    match l, k with
    | [], _ => simp [chunkList]
    | x :: xs, j + 1 =>
      rw [chunkList, List.flatten_cons]
      rw [ih ((x :: xs).drop (j + 1))
        (by simp only [List.length_drop, List.length_cons] at hl ⊢; omega)]
      exact List.take_append_drop _ _

theorem foldl_runBatch_mem (extractOk loadOk : List String → Bool) :
    ∀ (bs : List (List String)) (ledger : List String) (z : String),
      z ∈ bs.foldl (runBatch extractOk loadOk) ledger →
      z ∈ ledger ∨ ∃ b ∈ bs, z ∈ b ∧ extractOk b = true ∧ loadOk b = true := by
  intro bs
  induction bs with
  | nil => intro ledger z hz; exact Or.inl hz
  | cons b rest ih =>
    intro ledger z hz
    rw [List.foldl_cons] at hz
    rcases ih (runBatch extractOk loadOk ledger b) z hz with hin | ⟨b', hb', hzb', he, hl⟩
    · unfold runBatch at hin
      by_cases he : extractOk b = true
      · rw [if_pos he] at hin
        by_cases hl : loadOk b = true
        · rw [if_pos hl] at hin
          rcases List.mem_append.mp hin with h | h
          · exact Or.inl h
          · exact Or.inr ⟨b, List.mem_cons_self b rest, h, he, hl⟩
        · rw [if_neg hl] at hin
          exact Or.inl hin
      · rw [if_neg he] at hin
        exact Or.inl hin
    · exact Or.inr ⟨b', List.mem_cons_of_mem b hb', hzb', he, hl⟩

/-- C6: with an unchanged ledger already covering every input, a re-run
dispatches no batches and leaves the ledger as it was; under force, the
ledger is ignored and the dispatched batches cover exactly the full input
list; and in every run, a file ends up marked processed only if it was
already in the effective ledger or sits in a dispatched batch whose
extraction and loading both succeeded. -/
theorem c6_resume_ledger (extractOk loadOk : List String → Bool) (k : Nat)
    (zips ledger : List String) (force : Bool) (hk : 0 < k) :
    ((force = false) → (∀ z ∈ zips, z ∈ ledger) →
      runPipeline extractOk loadOk k zips ledger force = (ledger, []))
    ∧ ((force = true) →
      (runPipeline extractOk loadOk k zips ledger force).2.flatten = zips)
    ∧ (∀ z, z ∈ (runPipeline extractOk loadOk k zips ledger force).1 →
        z ∈ effectiveLedger ledger force
        ∨ ∃ b ∈ (runPipeline extractOk loadOk k zips ledger force).2,
            z ∈ b ∧ extractOk b = true ∧ loadOk b = true) := by
  refine ⟨?_, ?_, ?_⟩
  · intro hforce hall
    subst hforce
    have hfilter : toProcessList zips ledger false = [] := by
      rw [toProcessList, List.filter_eq_nil_iff]
      intro z hz
      simpa [effectiveLedger] using hall z hz
    rw [runPipeline, if_pos hfilter]
    rfl
  · intro hforce
    subst hforce
    have hfilter : toProcessList zips ledger true = zips := by
      simp [toProcessList, effectiveLedger]
    rw [runPipeline, hfilter]
    by_cases hz : zips = []
    · subst hz
      simp
    · rw [if_neg hz]
      exact chunkList_flatten k hk zips.length zips (Nat.le_refl _)
  · intro z hz
    rw [runPipeline] at hz ⊢
    by_cases hempty : toProcessList zips ledger force = []
    · rw [if_pos hempty] at hz ⊢
      exact Or.inl hz
    · rw [if_neg hempty] at hz ⊢
      exact foldl_runBatch_mem extractOk loadOk _ _ z hz

/-- C6 witness: one input file already in the ledger; the re-run dispatches
nothing and keeps the ledger. -/
theorem c6_resume_ledger_witness :
    runPipeline (fun _ => true) (fun _ => true) 1 ["a.zip"] ["a.zip"] false
      = (["a.zip"], []) :=
  (c6_resume_ledger (fun _ => true) (fun _ => true) 1 ["a.zip"] ["a.zip"] false
    (by decide)).1 rfl (by decide)

end Enron
